import Mathlib

/-!
Verification of the `concurrent-data-structures` library: shallow embeddings of
the lock-free queue (`include/concurrent/lockfree_queue.hpp` and the variant
copy embedded at the end of `include/concurrent/thread_pool.hpp`), the
lock-free hash map (`include/concurrent/lockfree_hashmap.hpp`) and the thread
pool (`include/concurrent/thread_pool.hpp`), together with theorems about
their single-threaded (quiescent) behaviour and small-step interleaving models
for the two concurrency claims.
-/

namespace CDS

namespace LFQ1

/-! ### Queue, variant 1 (`lockfree_queue.hpp`)

The queue is a singly linked chain of nodes starting at `head_`; every node
holds an atomic data pointer (`none` models `nullptr`) and a `next` link.  We
model the chain reachable from `head_` as a list of the nodes' data fields,
head node first.  A fresh queue is a single dummy node with null data.

In variant 1, `dequeue` moves the payload out of `head->next`, advances
`head_` with a plain store and frees the old head node.  The C++ code deletes
the payload object but does not overwrite the `data` pointer of the node that
becomes the new head; that pointer is never read again by any operation
(`dequeue` and `approximate_size` only ever read the `data` field of a node
reached as somebody's `next`), so we keep the field's value unchanged, exactly
as the source leaves the pointer bits unchanged. -/
structure Queue (α : Type) where
  nodes : List (Option α)
deriving DecidableEq

/-- `LockFreeQueue()` constructor: a single dummy node, `head_ = tail_ = dummy`. -/
def init {α : Type} : Queue α := ⟨[none]⟩

/-- `enqueue`: allocate a node carrying the payload, exchange `tail_`, link the
previous tail's `next` to it; returns `true`.  Single-threaded this appends the
new node at the end of the chain. -/
def enqueue {α : Type} (q : Queue α) (v : α) : Bool × Queue α :=
  (true, ⟨q.nodes ++ [some v]⟩)

/-- `dequeue`: read `head_` and `head->next`; if `next == nullptr` the queue is
empty; if `next->data == nullptr` return `none`; otherwise move the payload
out, store `next` into `head_` and free the old head node. -/
def dequeue {α : Type} (q : Queue α) : Option α × Queue α :=
  match q.nodes with
  | [] => (none, q)
  | _hd :: rest =>
    match rest with
    | [] => (none, q)
    | nxt :: _rest2 =>
      match nxt with
      | none => (none, q)
      | some v => (some v, ⟨rest⟩)

/-- `empty`: `head->next == nullptr`. -/
def emptyQ {α : Type} (q : Queue α) : Bool :=
  match q.nodes with
  | _ :: _ :: _ => false
  | _ => true

/-- Loop body of `approximate_size`: walk `current` down the chain, counting
each node whose successor exists and has a non-null `data` pointer. -/
def approxLoop {α : Type} : List (Option α) → Nat
  | [] => 0
  | _cur :: rest =>
    (match rest with
     | nxt :: _ => if nxt.isSome then 1 else 0
     | [] => 0) + approxLoop rest

/-- `approximate_size`: run the counting walk from `head_`. -/
def approxSize {α : Type} (q : Queue α) : Nat := approxLoop q.nodes

/-- Enqueue a whole list of values, left to right. -/
def enqAll {α : Type} (q : Queue α) (xs : List α) : Queue α :=
  xs.foldl (fun q v => (enqueue q v).2) q

/-- Perform `n` successive dequeues, collecting the returned options. -/
def drainOut {α : Type} : Queue α → Nat → List (Option α) × Queue α
  | q, 0 => ([], q)
  | q, n + 1 =>
    let r := dequeue q
    let rest := drainOut r.2 n
    (r.1 :: rest.1, rest.2)

end LFQ1

namespace LFQ2

/-! ### Queue, variant 2 (copy embedded at the end of `thread_pool.hpp`)

Same node layout and constructor.  `enqueue`, `empty` and `approximate_size`
are textually identical to variant 1.  `dequeue` differs: it advances `head_`
by `compare_exchange_weak` (which always succeeds on the first try in a
single-threaded execution), clears the new head node's `data` pointer to
`nullptr`, and defers all node deletion to the destructor.  Deferred nodes sit
before `head_` and are unreachable from it, so they do not appear in the chain
model. -/
structure Queue (α : Type) where
  nodes : List (Option α)
deriving DecidableEq

/-- Constructor: single dummy node. -/
def init {α : Type} : Queue α := ⟨[none]⟩

/-- `enqueue` (textually identical to variant 1). -/
def enqueue {α : Type} (q : Queue α) (v : α) : Bool × Queue α :=
  (true, ⟨q.nodes ++ [some v]⟩)

/-- `dequeue`: same emptiness and data checks as variant 1; on the (here
always-successful) CAS of `head_` from `head` to `next`, it moves the payload
out, stores `nullptr` into `next->data`, and skips node deletion. -/
def dequeue {α : Type} (q : Queue α) : Option α × Queue α :=
  match q.nodes with
  | [] => (none, q)
  | _hd :: rest =>
    match rest with
    | [] => (none, q)
    | nxt :: rest2 =>
      match nxt with
      | none => (none, q)
      | some v => (some v, ⟨none :: rest2⟩)

/-- `empty` (textually identical to variant 1). -/
def emptyQ {α : Type} (q : Queue α) : Bool :=
  match q.nodes with
  | _ :: _ :: _ => false
  | _ => true

/-- `approximate_size` walk (textually identical to variant 1). -/
def approxLoop {α : Type} : List (Option α) → Nat
  | [] => 0
  | _cur :: rest =>
    (match rest with
     | nxt :: _ => if nxt.isSome then 1 else 0
     | [] => 0) + approxLoop rest

/-- `approximate_size`. -/
def approxSize {α : Type} (q : Queue α) : Nat := approxLoop q.nodes

end LFQ2

/-! ### Observable equivalence of the two queue variants (claim C9) -/
/-- A single-threaded queue operation. -/
inductive QOp (α : Type) where
  | enq (v : α)
  | deq
  | isEmptyOp
  | sizeOp
deriving DecidableEq

/-- An observable result of a queue operation. -/
inductive QOut (α : Type) where
  | flag (b : Bool)
  | val (o : Option α)
  | count (n : Nat)
deriving DecidableEq

/-- Run one operation on a variant-1 queue. -/
def step1 {α : Type} (q : LFQ1.Queue α) : QOp α → QOut α × LFQ1.Queue α
  | .enq v => let r := LFQ1.enqueue q v; (.flag r.1, r.2)
  | .deq => let r := LFQ1.dequeue q; (.val r.1, r.2)
  | .isEmptyOp => (.flag (LFQ1.emptyQ q), q)
  | .sizeOp => (.count (LFQ1.approxSize q), q)

/-- Run one operation on a variant-2 queue. -/
def step2 {α : Type} (q : LFQ2.Queue α) : QOp α → QOut α × LFQ2.Queue α
  | .enq v => let r := LFQ2.enqueue q v; (.flag r.1, r.2)
  | .deq => let r := LFQ2.dequeue q; (.val r.1, r.2)
  | .isEmptyOp => (.flag (LFQ2.emptyQ q), q)
  | .sizeOp => (.count (LFQ2.approxSize q), q)

/-- Output trace of a sequence of operations on a variant-1 queue. -/
def run1 {α : Type} : LFQ1.Queue α → List (QOp α) → List (QOut α)
  | _, [] => []
  | q, op :: ops => let r := step1 q op; r.1 :: run1 r.2 ops

/-- Output trace of a sequence of operations on a variant-2 queue. -/
def run2 {α : Type} : LFQ2.Queue α → List (QOp α) → List (QOut α)
  | _, [] => []
  | q, op :: ops => let r := step2 q op; r.1 :: run2 r.2 ops

/-- Simulation relation between the two variants' states: same chain length
and the chains agree from the second node on.  (The head node's `data` field —
stale in variant 1, nulled in variant 2 — is never read by any operation.) -/
def QRel {α : Type} (q1 : LFQ1.Queue α) (q2 : LFQ2.Queue α) : Prop :=
  q1.nodes.length = q2.nodes.length ∧ q1.nodes.drop 1 = q2.nodes.drop 1

namespace LFHM

/-! ### Hash map (`lockfree_hashmap.hpp`)

A bucket is an atomic head pointer to a singly linked chain of nodes; a node
holds a key, an atomic `Value*` (`none` models `nullptr`) and an atomic
`marked` flag.  We model the bucket array as a list of chains.  In a
single-threaded (quiescent) execution every CAS succeeds on its first attempt
and `erase`'s retry loops never iterate, so each public operation is the
straight-line function below, translated statement by statement. -/
structure Node (κ ν : Type) where
  key : κ
  value : Option ν
  marked : Bool
deriving DecidableEq

structure HashMap (κ ν : Type) where
  buckets : List (List (Node κ ν))
  size : Nat
deriving DecidableEq

/-- Constructor: `buckets_(bucket_count)` value-initialises `bucket_count`
empty buckets; there is no guard against `bucket_count == 0`. -/
def mkHashMap (κ ν : Type) (bucket_count : Nat) : HashMap κ ν :=
  ⟨List.replicate bucket_count [], 0⟩

/-- `bucket_index`: `hasher_(key) % buckets_.size()`. -/
def bucketIdx {κ : Type} (hf : κ → Nat) (bucketCount : Nat) (k : κ) : Nat :=
  hf k % bucketCount

variable {κ ν : Type} [DecidableEq κ]

/-- The condition tested on each chain node by `find_node`:
`!current->marked && current->key == key`. -/
def nodeMatches (k : κ) (nd : Node κ ν) : Bool :=
  !nd.marked && decide (nd.key = k)

/-- `find_node`: walk the chain and return the first unmarked node with an
equal key. -/
def findNode (chain : List (Node κ ν)) (k : κ) : Option (Node κ ν) :=
  chain.find? (nodeMatches k)

/-- The update path of `insert` when `find_node` succeeded: the found node's
value holder is replaced by `exchange` with a holder for the new value.  In
the chain model this rewrites the first matching node in place. -/
def updateValue (k : κ) (v : ν) : List (Node κ ν) → List (Node κ ν)
  | [] => []
  | nd :: rest =>
    if nodeMatches k nd then { nd with value := some v } :: rest
    else nd :: updateValue k v rest

/-- `insert`: look the key up in its bucket; if found, swap in the new value
and return `false` ("updated"); otherwise prepend a fresh node by CAS on the
bucket head, bump `size_`, and return `true` ("inserted"). -/
def insert (hf : κ → Nat) (m : HashMap κ ν) (k : κ) (v : ν) : Bool × HashMap κ ν :=
  let i := bucketIdx hf m.buckets.length k
  let chain := m.buckets.getD i []
  match findNode chain k with
  | some _ =>
    (false, { m with buckets := m.buckets.set i (updateValue k v chain) })
  | none =>
    (true, { buckets := m.buckets.set i (⟨k, some v, false⟩ :: chain),
             size := m.size + 1 })

/-- `get`: find the node; if present, load its value pointer and dereference
it when non-null. -/
def get (hf : κ → Nat) (m : HashMap κ ν) (k : κ) : Option ν :=
  match findNode (m.buckets.getD (bucketIdx hf m.buckets.length k) []) k with
  | some nd => nd.value
  | none => none

/-- The single-threaded effect of `erase` on a chain: find the first unmarked
matching node (as `find_node` does), mark it (uncontended, so the exchange
returns `false`), and unlink it — by the head CAS when it is the chain head,
otherwise by the predecessor walk and CAS.  Both unlink paths remove exactly
the found node.  Returns `none` when `find_node` fails. -/
def eraseChain (k : κ) : List (Node κ ν) → Option (List (Node κ ν))
  | [] => none
  | nd :: rest =>
    if nodeMatches k nd then some rest
    else match eraseChain k rest with
         | some rest2 => some (nd :: rest2)
         | none => none

/-- `erase`: remove the first live node for the key from its bucket and
decrement `size_` (a `size_t` `fetch_sub`; in every state reachable
single-threaded a successful erase has `size_ ≥ 1`, so `Nat` subtraction
agrees with the unsigned counter), or return `false` when the key is absent. -/
def erase (hf : κ → Nat) (m : HashMap κ ν) (k : κ) : Bool × HashMap κ ν :=
  let i := bucketIdx hf m.buckets.length k
  let chain := m.buckets.getD i []
  match eraseChain k chain with
  | none => (false, m)
  | some chain2 =>
    (true, { buckets := m.buckets.set i chain2, size := m.size - 1 })

/-- `contains`: `find_node(bucket, key) != nullptr`. -/
def contains (hf : κ → Nat) (m : HashMap κ ν) (k : κ) : Bool :=
  (findNode (m.buckets.getD (bucketIdx hf m.buckets.length k) []) k).isSome

/-- `size`: load of the `size_` counter. -/
def mapSize (m : HashMap κ ν) : Nat := m.size

/-- `empty`: `size() == 0`. -/
def isEmpty (m : HashMap κ ν) : Bool := m.size == 0

/-- Well-formedness of one bucket chain in a quiescent state: every node is
unmarked and its value pointer non-null, and the keys are pairwise distinct. -/
def chainWF (c : List (Node κ ν)) : Prop :=
  (∀ nd ∈ c, nd.marked = false ∧ nd.value.isSome = true) ∧ (c.map Node.key).Nodup

/-- Well-formedness of a quiescent map: a nonempty bucket array whose chains
are all well-formed. -/
def WF (m : HashMap κ ν) : Prop :=
  0 < m.buckets.length ∧ ∀ c ∈ m.buckets, chainWF c

/-- A single-threaded (quiescent) hash-map operation. -/
inductive MapOp (κ ν : Type) where
  | ins (k : κ) (v : ν)
  | del (k : κ)
  | lookup (k : κ)
  | mem (k : κ)

/-- State change of one operation (`get`/`contains` leave the map unchanged). -/
def applyOp (hf : κ → Nat) (m : HashMap κ ν) : MapOp κ ν → HashMap κ ν
  | .ins k v => (insert hf m k v).2
  | .del k => (erase hf m k).2
  | .lookup _ => m
  | .mem _ => m

/-- Run a whole sequence of operations. -/
def runOps (hf : κ → Nat) : HashMap κ ν → List (MapOp κ ν) → HashMap κ ν
  | m, [] => m
  | m, op :: ops => runOps hf (applyOp hf m op) ops

/-- Spec-level set of live keys of an operation history: a key is live when it
has been inserted at least once and not erased since its last insert. -/
def liveSet : List (MapOp κ ν) → Finset κ → Finset κ
  | [], s => s
  | .ins k _ :: ops, s => liveSet ops (Insert.insert k s)
  | .del k :: ops, s => liveSet ops (s.erase k)
  | .lookup _ :: ops, s => liveSet ops s
  | .mem _ :: ops, s => liveSet ops s

end LFHM

namespace Race

/-! ### Interleaving model for two concurrent same-key inserts (claim C5)

`LockFreeHashMap::insert` is not atomic: it first runs the `find_node` chain
walk, and only then either swaps the found node's value holder or publishes a
new node with a CAS on the bucket head.  The small-step machine below gives
each thread a program counter over exactly those statements and lets a
schedule interleave two `insert(k, ·)` calls on one shared bucket. -/
/-- Shared state read and written by the two inserting threads: the chain
hanging off the single bucket's atomic head pointer, and the `size_`
counter. -/
structure Shared (κ ν : Type) where
  chain : List (LFHM.Node κ ν)
  size : Nat
deriving DecidableEq

/-- Program counter of one thread running `LockFreeHashMap::insert(k, v)`:
`start` — about to run the `find_node` chain walk;
`casTry observed` — `find_node` returned null, the thread has loaded the
bucket head, stored it into its new node's `next`, and is about to run
`compare_exchange_weak`;
`bump` — the CAS succeeded, the thread is about to `size_.fetch_add(1)`;
`swapVal` — `find_node` returned a node, the thread is about to `exchange`
its value holder;
`ret b` — the call has returned `b`. -/
inductive Phase (κ ν : Type) where
  | start
  | casTry (observed : List (LFHM.Node κ ν))
  | bump
  | swapVal
  | ret (b : Bool)
deriving DecidableEq

/-- One atomic step of a thread executing `insert(k, v)`.  The C++ CAS
compares the bucket-head pointer with the observed head; pointer equality is
modelled as equality of the observed chain (on the concrete schedule below
the compared chains always have different lengths when they differ, so the
two notions coincide).  A failed CAS reloads the head and re-stores the new
node's `next`, exactly as the retry loop in the source does. -/
def threadStep {κ ν : Type} [DecidableEq κ] [DecidableEq ν] (k : κ) (v : ν)
    (sh : Shared κ ν) (ph : Phase κ ν) : Shared κ ν × Phase κ ν :=
  match ph with
  | .start =>
    match LFHM.findNode sh.chain k with
    | some _ => (sh, .swapVal)
    | none => (sh, .casTry sh.chain)
  | .casTry observed =>
    if sh.chain = observed then
      ({ sh with chain := ⟨k, some v, false⟩ :: observed }, .bump)
    else
      (sh, .casTry sh.chain)
  | .bump => ({ sh with size := sh.size + 1 }, .ret true)
  | .swapVal => ({ sh with chain := LFHM.updateValue k v sh.chain }, .ret false)
  | .ret b => (sh, .ret b)

/-- Run a schedule from a given configuration: `false` steps thread A
(`insert(k, va)`), `true` steps thread B (`insert(k, vb)`). -/
def runSchedFrom {κ ν : Type} [DecidableEq κ] [DecidableEq ν] (k : κ) (va vb : ν) :
    Shared κ ν × Phase κ ν × Phase κ ν → List Bool → Shared κ ν × Phase κ ν × Phase κ ν
  | st, [] => st
  | st, t :: rest =>
    if t then
      let r := threadStep k vb st.1 st.2.2
      runSchedFrom k va vb (r.1, st.2.1, r.2) rest
    else
      let r := threadStep k va st.1 st.2.1
      runSchedFrom k va vb (r.1, r.2, st.2.2) rest

/-- Run a schedule from the initial configuration: one empty bucket (the key
is previously absent), `size_ = 0`, both threads about to call `insert`. -/
def runSched {κ ν : Type} [DecidableEq κ] [DecidableEq ν] (k : κ) (va vb : ν)
    (sched : List Bool) : Shared κ ν × Phase κ ν × Phase κ ν :=
  runSchedFrom k va vb (⟨[], 0⟩, .start, .start) sched

end Race

namespace Pool

/-! ### Interleaving model for `ThreadPool::wait` (claim C6)

`worker_loop` increments `active_tasks_` only *after* `dequeue` has already
removed the work unit from the queue, while `wait` decides to return by
reading `active_tasks_` and then `task_queue_.empty()`.  The machine below
steps one worker thread and the waiting thread statement by statement over
the shared pool state. -/
/-- Shared pool state: the ids still in the internal task queue (FIFO), the
`active_tasks_` counter, and the ids of work units that have finished
executing. -/
structure PState where
  queue : List Nat
  active : Nat
  executed : List Nat
deriving DecidableEq

/-- Worker program counter over the statements of `ThreadPool::worker_loop`:
`deq` — about to call `task_queue_.dequeue()`;
`inc t` — dequeue returned unit `t`, about to `active_tasks_.fetch_add(1)`;
`exec t` — about to invoke the unit;
`dec` — the unit finished, about to `active_tasks_.fetch_sub(1)`. -/
inductive WPhase where
  | deq
  | inc (t : Nat)
  | exec (t : Nat)
  | dec
deriving DecidableEq

/-- One atomic step of the worker loop.  An empty dequeue sends the worker to
the timed condition-variable wait and then back to the dequeue. -/
def workerStep (st : PState) (ph : WPhase) : PState × WPhase :=
  match ph with
  | .deq =>
    match st.queue with
    | [] => (st, .deq)
    | t :: rest => ({ st with queue := rest }, .inc t)
  | .inc t => ({ st with active := st.active + 1 }, .exec t)
  | .exec t => ({ st with executed := st.executed ++ [t] }, .dec)
  | .dec => ({ st with active := st.active - 1 }, .deq)

/-- Waiting thread's program counter over the statements of
`ThreadPool::wait`:
`spin` — about to load `active_tasks_` in the first while loop;
`checkQ` — about to test `task_queue_.empty()` in the drain loop;
`drainDeq` — queue looked nonempty, about to dequeue on the calling thread;
`drainInc t`, `drainRun t`, `drainDec` — the drain body's increment, task
invocation and decrement;
`returned` — `wait` has returned. -/
inductive MPhase where
  | spin
  | checkQ
  | drainDeq
  | drainInc (t : Nat)
  | drainRun (t : Nat)
  | drainDec
  | returned
deriving DecidableEq

/-- One atomic step of `wait` on the calling thread. -/
def mainStep (st : PState) (ph : MPhase) : PState × MPhase :=
  match ph with
  | .spin => if st.active > 0 then (st, .spin) else (st, .checkQ)
  | .checkQ => if st.queue.isEmpty then (st, .returned) else (st, .drainDeq)
  | .drainDeq =>
    match st.queue with
    | [] => (st, .checkQ)
    | t :: rest => ({ st with queue := rest }, .drainInc t)
  | .drainInc t => ({ st with active := st.active + 1 }, .drainRun t)
  | .drainRun t => ({ st with executed := st.executed ++ [t] }, .drainDec)
  | .drainDec => ({ st with active := st.active - 1 }, .checkQ)
  | .returned => (st, .returned)

/-- Run a schedule: `false` steps the worker, `true` steps the waiting
thread. -/
def runPoolSched : PState × WPhase × MPhase → List Bool → PState × WPhase × MPhase
  | st, [] => st
  | st, t :: rest =>
    if t then
      let r := mainStep st.1 st.2.2
      runPoolSched (r.1, st.2.1, r.2) rest
    else
      let r := workerStep st.1 st.2.1
      runPoolSched (r.1, r.2, st.2.2) rest

end Pool

/-! ### Thread pool: submission, execution, failure capture (claims C7, C8)

`ThreadPool::submit` wraps the work unit in a `std::packaged_task`, keeps the
`std::future` as the caller's result handle, and enqueues a thunk invoking
the task on the pool's internal `LockFreeQueue`.  `worker_loop` dequeues and
invokes the thunks.  By the C++ standard semantics of
`std::packaged_task::operator()`, the stored callable's return value — or any
exception it throws — is stored into the shared state read through the
future, and the invocation itself does not propagate the exception; hence
the invocation in `worker_loop` cannot kill the worker.  We model a work
unit by its outcome (`Except.ok` a value, `Except.error` a thrown failure),
a handle by an optional stored outcome, and the drained pool by a worker
running the loop until the queue reports empty. -/
/-- Result handles of the submitted units: `handles i` is the shared state of
unit `i`'s future (`none` = not yet fulfilled). -/
def Handles (ε ρ : Type) : Type := Nat → Option (Except ε ρ)

/-- One worker running `worker_loop` to quiescence on the pool's queue of
submitted unit indices: dequeue a thunk, invoke it — which stores the unit's
outcome (value or captured failure) into its handle — and loop; stop when
the dequeue reports the queue empty.  `fuel` bounds the iterations. -/
def workerDrain {ε ρ : Type} (tasks : List (Except ε ρ)) (dflt : Except ε ρ) :
    Nat → LFQ1.Queue Nat → Handles ε ρ → Handles ε ρ
  | 0, _, handles => handles
  | fuel + 1, q, handles =>
    match LFQ1.dequeue q with
    | (some i, q2) =>
      workerDrain tasks dflt fuel q2
        (Function.update handles i (some (tasks.getD i dflt)))
    | (none, _) => handles

/-- Submit the units `tasks` in order to a fresh pool (enqueueing their
indices), then run the worker until the queue is drained. -/
def poolRun {ε ρ : Type} (tasks : List (Except ε ρ)) (dflt : Except ε ρ) :
    Handles ε ρ :=
  workerDrain tasks dflt tasks.length
    (LFQ1.enqAll LFQ1.init (List.range tasks.length)) (fun _ => none)

/-- Worker count chosen by the `ThreadPool` constructor:
`if (num_threads == 0) num_threads = 1;`. -/
def effectiveWorkers (num_threads : Nat) : Nat :=
  if num_threads == 0 then 1 else num_threads

/-! ### Theorems -/

namespace LFQ1

theorem enqAll_nodes {α : Type} (xs : List α) :
    ∀ q : Queue α, (enqAll q xs).nodes = q.nodes ++ xs.map some := by
  induction xs with
  | nil => intro q; simp [enqAll]
  | cons x xs ih =>
    intro q
    simpa [enqAll, enqueue] using ih ⟨q.nodes ++ [some x]⟩

theorem drainOut_spec {α : Type} (vs : List α) :
    ∀ c0 : Option α,
      (drainOut ⟨c0 :: vs.map some⟩ vs.length).1 = vs.map some ∧
      ∃ c : Option α, (drainOut ⟨c0 :: vs.map some⟩ vs.length).2.nodes = [c] := by
  induction vs with
  | nil => intro c0; exact ⟨rfl, c0, rfl⟩
  | cons v vs ih =>
    intro c0
    have h := ih (some v)
    refine ⟨?_, h.2⟩
    simpa [drainOut, dequeue] using h.1

end LFQ1

/-- C1: single-threaded FIFO.  For every sequence of enqueues by one thread,
elements are dequeued in their enqueue order: after enqueueing the list `xs`,
`xs.length` successive dequeues return exactly `xs.map some`, the next dequeue
returns `none`, and `empty()` then returns `true`.  In particular, after
enqueueing `0..99`, 101 dequeues return `some 0, …, some 99, none`. -/
theorem queue_fifo_single_threaded :
    (∀ xs : List Nat,
      (LFQ1.drainOut (LFQ1.enqAll LFQ1.init xs) xs.length).1 = xs.map some ∧
      (LFQ1.dequeue (LFQ1.drainOut (LFQ1.enqAll LFQ1.init xs) xs.length).2).1 = none ∧
      LFQ1.emptyQ (LFQ1.drainOut (LFQ1.enqAll LFQ1.init xs) xs.length).2 = true) ∧
    (LFQ1.drainOut (LFQ1.enqAll LFQ1.init (List.range 100)) 101).1
      = (List.range 100).map some ++ [none] := by
  constructor
  · intro xs
    have hn : LFQ1.enqAll LFQ1.init xs = (⟨none :: xs.map some⟩ : LFQ1.Queue Nat) := by
      have h := LFQ1.enqAll_nodes xs (LFQ1.init (α := Nat))
      simp [LFQ1.init] at h
      exact congrArg LFQ1.Queue.mk h
    obtain ⟨hout, c, hfin⟩ := LFQ1.drainOut_spec xs none
    rw [hn]
    refine ⟨hout, ?_, ?_⟩
    · simp [LFQ1.dequeue, hfin]
    · simp [LFQ1.emptyQ, hfin]
  · set_option maxRecDepth 20000 in decide

theorem approxLoop_eq {α : Type} :
    ∀ l1 l2 : List (Option α), l1.length = l2.length → l1.drop 1 = l2.drop 1 →
      LFQ1.approxLoop l1 = LFQ2.approxLoop l2 := by
  intro l1 l2 hlen hdrop
  match l1, l2 with
  | [], [] => rfl
  | [], _ :: _ => simp at hlen
  | _ :: _, [] => simp at hlen
  | a :: t1, b :: t2 =>
    simp only [List.drop_one, List.tail_cons] at hdrop
    subst hdrop
    have : ∀ t : List (Option α), ∀ a b : Option α,
        LFQ1.approxLoop (a :: t) = LFQ2.approxLoop (b :: t) := by
      intro t
      induction t with
      | nil => intro a b; rfl
      | cons x t ih =>
        intro a b
        simp only [LFQ1.approxLoop, LFQ2.approxLoop]
        exact congrArg _ (ih x x)
    exact this t1 a b

theorem step_bisim {α : Type} (q1 : LFQ1.Queue α) (q2 : LFQ2.Queue α)
    (h : QRel q1 q2) (op : QOp α) :
    (step1 q1 op).1 = (step2 q2 op).1 ∧ QRel (step1 q1 op).2 (step2 q2 op).2 := by
  obtain ⟨hlen, hdrop⟩ := h
  obtain ⟨l1⟩ := q1
  obtain ⟨l2⟩ := q2
  cases op with
  | enq v =>
    refine ⟨rfl, ?_, ?_⟩ <;>
      simp only [step1, step2, LFQ1.enqueue, LFQ2.enqueue] at *
    · simpa using hlen
    · match l1, l2 with
      | [], [] => rfl
      | [], _ :: _ => simp at hlen
      | _ :: _, [] => simp at hlen
      | a :: t1, b :: t2 =>
        simp only [List.drop_one, List.tail_cons] at hdrop
        simp [hdrop]
  | deq =>
    match l1, l2 with
    | [], [] => exact ⟨rfl, rfl, rfl⟩
    | [], _ :: _ => simp at hlen
    | _ :: _, [] => simp at hlen
    | a :: t1, b :: t2 =>
      simp only [List.drop_one, List.tail_cons] at hdrop
      subst hdrop
      match t1 with
      | [] => exact ⟨rfl, hlen, rfl⟩
      | none :: t => exact ⟨rfl, hlen, rfl⟩
      | some v :: t => exact ⟨rfl, rfl, rfl⟩
  | isEmptyOp =>
    refine ⟨?_, hlen, hdrop⟩
    match l1, l2 with
    | [], [] => rfl
    | [], _ :: _ => simp at hlen
    | _ :: _, [] => simp at hlen
    | a :: t1, b :: t2 =>
      simp only [List.drop_one, List.tail_cons] at hdrop
      subst hdrop
      match t1 with
      | [] => rfl
      | _ :: _ => rfl
  | sizeOp =>
    exact ⟨congrArg QOut.count (approxLoop_eq l1 l2 hlen hdrop), hlen, hdrop⟩

theorem run_bisim {α : Type} (ops : List (QOp α)) :
    ∀ (q1 : LFQ1.Queue α) (q2 : LFQ2.Queue α), QRel q1 q2 →
      run1 q1 ops = run2 q2 ops := by
  induction ops with
  | nil => intro q1 q2 _; rfl
  | cons op ops ih =>
    intro q1 q2 h
    obtain ⟨hout, hrel⟩ := step_bisim q1 q2 h op
    simp only [run1, run2]
    rw [hout, ih _ _ hrel]

/-- C9: the two `LockFreeQueue` implementations — the one in
`lockfree_queue.hpp` (plain-store head advance, immediate free) and the copy
at the end of `thread_pool.hpp` (CAS head advance, deletion deferred to the
destructor) — are observably equivalent: every single-threaded sequence of
`enqueue`, `dequeue`, `empty` and `approximate_size` operations produces
identical output traces on freshly constructed queues. -/
theorem queue_variants_observably_equivalent (α : Type) (ops : List (QOp α)) :
    run1 LFQ1.init ops = run2 LFQ2.init ops :=
  run_bisim ops LFQ1.init LFQ2.init ⟨rfl, rfl⟩

namespace LFHM

variable {κ ν : Type} [DecidableEq κ]

theorem updateValue_keys (k : κ) (v : ν) :
    ∀ c : List (Node κ ν), (updateValue k v c).map Node.key = c.map Node.key := by
  intro c
  induction c with
  | nil => rfl
  | cons nd rest ih =>
    by_cases h : nodeMatches k nd = true
    · simp [updateValue, h]
    · simp only [Bool.not_eq_true] at h
      simp [updateValue, h, ih]

theorem chainWF_updateValue (k : κ) (v : ν) {c : List (Node κ ν)} (h : chainWF c) :
    chainWF (updateValue k v c) := by
  obtain ⟨hflags, hdup⟩ := h
  constructor
  · intro nd' hmem
    clear hdup
    induction c with
    | nil => simp [updateValue] at hmem
    | cons nd rest ih =>
      by_cases hm : nodeMatches k nd = true
      · simp only [updateValue, hm, if_true, List.mem_cons] at hmem
        rcases hmem with h1 | h2
        · subst h1
          exact ⟨(hflags nd (by simp)).1, rfl⟩
        · exact hflags nd' (by simp [h2])
      · simp only [Bool.not_eq_true] at hm
        simp only [updateValue, hm, Bool.false_eq_true, if_false,
          List.mem_cons] at hmem
        rcases hmem with h1 | h2
        · subst h1; exact hflags nd' (by simp)
        · exact ih (fun x hx => hflags x (by simp [hx])) h2
  · rw [updateValue_keys]
    exact hdup

theorem findNode_updateValue_isSome (k k' : κ) (v : ν) :
    ∀ c : List (Node κ ν),
      (findNode (updateValue k v c) k').isSome = (findNode c k').isSome := by
  intro c
  induction c with
  | nil => rfl
  | cons nd rest ih =>
    by_cases hm : nodeMatches k nd = true
    · have hsame : nodeMatches (ν := ν) k' { nd with value := some v } = nodeMatches k' nd := rfl
      by_cases hm' : nodeMatches k' nd = true
      · simp [updateValue, findNode, hm, List.find?_cons, hsame, hm']
      · simp only [Bool.not_eq_true] at hm'
        simp [updateValue, findNode, hm, List.find?_cons, hsame, hm']
    · simp only [Bool.not_eq_true] at hm
      by_cases hm' : nodeMatches k' nd = true
      · simp [updateValue, findNode, hm, List.find?_cons, hm']
      · simp only [Bool.not_eq_true] at hm'
        simpa [updateValue, findNode, hm, List.find?_cons, hm'] using ih

theorem findNode_updateValue_self (k : κ) (v : ν) :
    ∀ (c : List (Node κ ν)) (nd : Node κ ν), findNode c k = some nd →
      findNode (updateValue k v c) k = some { nd with value := some v } := by
  intro c
  induction c with
  | nil => intro nd h; simp [findNode] at h
  | cons hd rest ih =>
    intro nd h
    by_cases hm : nodeMatches k hd = true
    · have heq : hd = nd := by
        simpa [findNode, List.find?_cons, hm] using h
      subst heq
      have hsame : nodeMatches (ν := ν) k { hd with value := some v } = nodeMatches k hd := rfl
      simp [updateValue, findNode, hm, List.find?_cons, hsame]
    · simp only [Bool.not_eq_true] at hm
      have hrest : findNode rest k = some nd := by
        simpa [findNode, List.find?_cons, hm] using h
      have hgoal := ih nd hrest
      simp only [updateValue, hm, Bool.false_eq_true, if_false]
      simpa [findNode, List.find?_cons, hm] using hgoal

theorem eraseChain_none (k : κ) :
    ∀ c : List (Node κ ν), eraseChain k c = none ↔ findNode c k = none := by
  intro c
  induction c with
  | nil => simp [eraseChain, findNode]
  | cons nd rest ih =>
    by_cases hm : nodeMatches k nd = true
    · simp [eraseChain, findNode, List.find?_cons, hm]
    · simp only [Bool.not_eq_true] at hm
      simp only [eraseChain, findNode, List.find?_cons, hm, Bool.false_eq_true,
        if_false]
      rw [← findNode, ← ih]
      cases eraseChain k rest <;> simp

theorem eraseChain_decomp (k : κ) :
    ∀ c c2 : List (Node κ ν), eraseChain k c = some c2 →
      ∃ pre nd post, c = pre ++ nd :: post ∧ c2 = pre ++ post ∧
        nodeMatches k nd = true ∧ ∀ x ∈ pre, nodeMatches k x = false := by
  intro c
  induction c with
  | nil => intro c2 h; simp [eraseChain] at h
  | cons nd rest ih =>
    intro c2 h
    by_cases hm : nodeMatches k nd = true
    · refine ⟨[], nd, rest, by simp, ?_, hm, by simp⟩
      simpa [eraseChain, hm] using h.symm
    · simp only [Bool.not_eq_true] at hm
      simp only [eraseChain, hm, Bool.false_eq_true, if_false] at h
      cases hrec : eraseChain k rest with
      | none => rw [hrec] at h; simp at h
      | some rest2 =>
        rw [hrec] at h
        simp only [Option.some.injEq] at h
        obtain ⟨pre, nd', post, hc, hc2, hmatch, hpre⟩ := ih rest2 hrec
        refine ⟨nd :: pre, nd', post, by simp [hc], by simp [← h, hc2], hmatch, ?_⟩
        intro x hx
        rcases List.mem_cons.mp hx with h1 | h2
        · subst h1; exact hm
        · exact hpre x h2

theorem nodeMatches_key {k : κ} {nd : Node κ ν} (h : nodeMatches k nd = true) :
    nd.key = k := by
  have := (Bool.and_eq_true _ _).mp h
  exact of_decide_eq_true this.2

theorem chainWF_eraseChain {k : κ} {c c2 : List (Node κ ν)}
    (h : eraseChain k c = some c2) (hwf : chainWF c) : chainWF c2 := by
  obtain ⟨pre, nd, post, hc, hc2, _, _⟩ := eraseChain_decomp k c c2 h
  subst hc; subst hc2
  obtain ⟨hflags, hdup⟩ := hwf
  constructor
  · intro x hx
    apply hflags
    rcases List.mem_append.mp hx with h1 | h2
    · exact List.mem_append.mpr (Or.inl h1)
    · exact List.mem_append.mpr (Or.inr (by simp [h2]))
  · have hsub : (pre ++ post).Sublist (pre ++ nd :: post) :=
      List.Sublist.append_left (List.sublist_cons_self nd post) pre
    exact List.Nodup.sublist (hsub.map Node.key) hdup

theorem findNode_eraseChain_self {k : κ} {c c2 : List (Node κ ν)}
    (h : eraseChain k c = some c2) (hwf : chainWF c) : findNode c2 k = none := by
  obtain ⟨pre, nd, post, hc, hc2, hmatch, hpre⟩ := eraseChain_decomp k c c2 h
  subst hc; subst hc2
  obtain ⟨_hflags, hdup⟩ := hwf
  rw [findNode, List.find?_eq_none]
  intro x hx
  rcases List.mem_append.mp hx with h1 | h2
  · simp [hpre x h1]
  · intro hmx
    have hxk : x.key = k := nodeMatches_key hmx
    have hndk : nd.key = k := nodeMatches_key hmatch
    have hpost : ∀ y ∈ post, ¬ y.key = nd.key := by
      have hsub : ((nd :: post).map Node.key).Sublist ((pre ++ nd :: post).map Node.key) :=
        (List.sublist_append_right pre (nd :: post)).map Node.key
      have h2 := List.Nodup.sublist hsub hdup
      simp only [List.map_cons, List.nodup_cons, List.mem_map] at h2
      intro y hy hkey
      exact h2.1 ⟨y, hy, hkey⟩
    exact hpost x h2 (by rw [hxk, hndk])

theorem findNode_eraseChain_other {k k' : κ} (hne : k' ≠ k) {c c2 : List (Node κ ν)}
    (h : eraseChain k c = some c2) : findNode c2 k' = findNode c k' := by
  obtain ⟨pre, nd, post, hc, hc2, hmatch, _⟩ := eraseChain_decomp k c c2 h
  subst hc; subst hc2
  have hndk : nd.key = k := nodeMatches_key hmatch
  have hnm : nodeMatches k' nd = false := by
    simp [nodeMatches, hndk, hne.symm]
  simp [findNode, List.find?_append, List.find?_cons, hnm]

theorem getD_set_self {β : Type} {l : List β} {i : Nat} (h : i < l.length) (x d : β) :
    (l.set i x).getD i d = x := by
  simp [List.getD_eq_getElem?_getD, List.getElem?_set_self (by simpa using h)]

theorem getD_set_ne {β : Type} {l : List β} {i j : Nat} (h : i ≠ j) (x d : β) :
    (l.set i x).getD j d = l.getD j d := by
  simp [List.getD_eq_getElem?_getD, List.getElem?_set_ne h]

theorem getD_mem {β : Type} {l : List β} {i : Nat} (h : i < l.length) (d : β) :
    l.getD i d ∈ l := by
  rw [List.getD_eq_getElem?_getD, List.getElem?_eq_getElem h]
  exact List.getElem_mem h

theorem bucketIdx_lt (hf : κ → Nat) (k : κ) {n : Nat} (h : 0 < n) :
    bucketIdx hf n k < n :=
  Nat.mod_lt _ h

theorem contains_set_bucket (hf : κ → Nat) {m : HashMap κ ν} {k : κ}
    (hb : 0 < m.buckets.length) (c : List (Node κ ν)) (sz : Nat) (k' : κ) :
    contains hf ⟨m.buckets.set (bucketIdx hf m.buckets.length k) c, sz⟩ k' =
      (findNode (if bucketIdx hf m.buckets.length k' = bucketIdx hf m.buckets.length k
                 then c else m.buckets.getD (bucketIdx hf m.buckets.length k') []) k').isSome := by
  simp only [contains, List.length_set]
  by_cases h : bucketIdx hf m.buckets.length k' = bucketIdx hf m.buckets.length k
  · rw [if_pos h, h, getD_set_self (bucketIdx_lt hf k hb)]
  · rw [if_neg h, getD_set_ne (fun hh => h hh.symm)]

theorem get_set_bucket (hf : κ → Nat) {m : HashMap κ ν} {k : κ}
    (hb : 0 < m.buckets.length) (c : List (Node κ ν)) (sz : Nat) (k' : κ) :
    get hf ⟨m.buckets.set (bucketIdx hf m.buckets.length k) c, sz⟩ k' =
      (match findNode (if bucketIdx hf m.buckets.length k' = bucketIdx hf m.buckets.length k
                       then c else m.buckets.getD (bucketIdx hf m.buckets.length k') []) k' with
       | some nd => nd.value
       | none => none) := by
  simp only [get, List.length_set]
  by_cases h : bucketIdx hf m.buckets.length k' = bucketIdx hf m.buckets.length k
  · rw [if_pos h, h, getD_set_self (bucketIdx_lt hf k hb)]
  · rw [if_neg h, getD_set_ne (fun hh => h hh.symm)]

theorem insert_ret (hf : κ → Nat) (m : HashMap κ ν) (k : κ) (v : ν) :
    (insert hf m k v).1 = !(contains hf m k) := by
  simp only [insert, contains]
  cases h : findNode (m.buckets.getD (bucketIdx hf m.buckets.length k) []) k <;> simp [h]

theorem insert_size_eq (hf : κ → Nat) (m : HashMap κ ν) (k : κ) (v : ν) :
    (insert hf m k v).2.size =
      if contains hf m k = true then m.size else m.size + 1 := by
  cases h : findNode (m.buckets.getD (bucketIdx hf m.buckets.length k) []) k with
  | some nd => simp only [insert, contains, h, Option.isSome_some, if_true]
  | none =>
    simp only [insert, contains, h, Option.isSome_none, Bool.false_eq_true, if_false]

theorem insert_len (hf : κ → Nat) (m : HashMap κ ν) (k : κ) (v : ν) :
    (insert hf m k v).2.buckets.length = m.buckets.length := by
  simp only [insert]
  cases h : findNode (m.buckets.getD (bucketIdx hf m.buckets.length k) []) k <;> simp [h]

theorem chainWF_cons_of_not_found {k : κ} (v : ν) {chain : List (Node κ ν)}
    (hwf : chainWF chain) (h : findNode chain k = none) :
    chainWF (⟨k, some v, false⟩ :: chain) := by
  obtain ⟨hflags, hdup⟩ := hwf
  rw [findNode, List.find?_eq_none] at h
  constructor
  · intro nd hnd
    rcases List.mem_cons.mp hnd with h1 | h2
    · subst h1; exact ⟨rfl, rfl⟩
    · exact hflags nd h2
  · rw [List.map_cons, List.nodup_cons]
    refine ⟨?_, hdup⟩
    intro hmem
    obtain ⟨nd, hnd, hkey⟩ := List.mem_map.mp hmem
    have := h nd hnd
    rw [nodeMatches, hkey] at this
    simp [(hflags nd hnd).1] at this

theorem contains_insert_self (hf : κ → Nat) {m : HashMap κ ν}
    (hb : 0 < m.buckets.length) (k : κ) (v : ν) :
    contains hf (insert hf m k v).2 k = true := by
  simp only [insert]
  cases h : findNode (m.buckets.getD (bucketIdx hf m.buckets.length k) []) k with
  | some nd =>
    rw [contains_set_bucket hf hb _ _ k, if_pos rfl, findNode_updateValue_isSome, h]
    rfl
  | none =>
    rw [contains_set_bucket hf hb _ _ k, if_pos rfl]
    simp [findNode, List.find?_cons, nodeMatches]

theorem contains_insert_other (hf : κ → Nat) {m : HashMap κ ν}
    (hb : 0 < m.buckets.length) {k k' : κ} (hne : k' ≠ k) (v : ν) :
    contains hf (insert hf m k v).2 k' = contains hf m k' := by
  simp only [insert]
  cases h : findNode (m.buckets.getD (bucketIdx hf m.buckets.length k) []) k with
  | some nd =>
    rw [contains_set_bucket hf hb _ _ k']
    by_cases hidx : bucketIdx hf m.buckets.length k' = bucketIdx hf m.buckets.length k
    · rw [if_pos hidx, findNode_updateValue_isSome, contains, hidx]
    · rw [if_neg hidx, contains]
  | none =>
    rw [contains_set_bucket hf hb _ _ k']
    by_cases hidx : bucketIdx hf m.buckets.length k' = bucketIdx hf m.buckets.length k
    · rw [if_pos hidx]
      have hnm : nodeMatches (ν := ν) k' ⟨k, some v, false⟩ = false := by
        simp [nodeMatches, hne.symm]
      rw [findNode, List.find?_cons_of_neg _ (by simp [hnm]), contains, hidx]
      rfl
    · rw [if_neg hidx, contains]

theorem get_insert_self (hf : κ → Nat) {m : HashMap κ ν}
    (hb : 0 < m.buckets.length) (k : κ) (v : ν) :
    get hf (insert hf m k v).2 k = some v := by
  simp only [insert]
  cases h : findNode (m.buckets.getD (bucketIdx hf m.buckets.length k) []) k with
  | some nd =>
    rw [get_set_bucket hf hb _ _ k, if_pos rfl, findNode_updateValue_self k v _ nd h]
  | none =>
    rw [get_set_bucket hf hb _ _ k, if_pos rfl]
    simp [findNode, List.find?_cons, nodeMatches]

theorem insert_wf (hf : κ → Nat) {m : HashMap κ ν} (hwf : WF m) (k : κ) (v : ν) :
    WF (insert hf m k v).2 := by
  obtain ⟨hb, hchains⟩ := hwf
  have hchain : chainWF (m.buckets.getD (bucketIdx hf m.buckets.length k) []) :=
    hchains _ (getD_mem (bucketIdx_lt hf k hb) [])
  simp only [insert]
  cases h : findNode (m.buckets.getD (bucketIdx hf m.buckets.length k) []) k with
  | some nd =>
    refine ⟨by simpa using hb, ?_⟩
    intro c hc
    rcases List.mem_or_eq_of_mem_set hc with h1 | h2
    · exact hchains c h1
    · subst h2; exact chainWF_updateValue k v hchain
  | none =>
    refine ⟨by simpa using hb, ?_⟩
    intro c hc
    rcases List.mem_or_eq_of_mem_set hc with h1 | h2
    · exact hchains c h1
    · subst h2; exact chainWF_cons_of_not_found v hchain h

theorem erase_ret (hf : κ → Nat) (m : HashMap κ ν) (k : κ) :
    (erase hf m k).1 = contains hf m k := by
  cases h : eraseChain k (m.buckets.getD (bucketIdx hf m.buckets.length k) []) with
  | none =>
    have hfn := (eraseChain_none k _).mp h
    simp only [erase, contains, h, hfn, Option.isSome_none]
  | some c2 =>
    have hfn : (findNode (m.buckets.getD (bucketIdx hf m.buckets.length k) []) k).isSome = true := by
      rw [Option.isSome_iff_ne_none]
      intro hn
      rw [← eraseChain_none k, h] at hn
      exact Option.noConfusion hn
    simp only [erase, contains, h, hfn]

theorem erase_of_not_contains (hf : κ → Nat) {m : HashMap κ ν} {k : κ}
    (h : contains hf m k = false) : erase hf m k = (false, m) := by
  have hn : findNode (m.buckets.getD (bucketIdx hf m.buckets.length k) []) k = none := by
    simpa [contains, Option.isSome_iff_ne_none] using h
  have he : eraseChain k (m.buckets.getD (bucketIdx hf m.buckets.length k) []) = none :=
    (eraseChain_none k _).mpr hn
  simp only [erase, he]

theorem erase_size_eq (hf : κ → Nat) (m : HashMap κ ν) (k : κ) :
    (erase hf m k).2.size =
      if contains hf m k = true then m.size - 1 else m.size := by
  cases hc : contains hf m k with
  | false => rw [erase_of_not_contains hf hc]; simp
  | true =>
    simp only [erase]
    cases h : eraseChain k (m.buckets.getD (bucketIdx hf m.buckets.length k) []) with
    | none =>
      have := (eraseChain_none k _).mp h
      rw [contains, this] at hc
      simp at hc
    | some c2 => simp [h]

theorem erase_len (hf : κ → Nat) (m : HashMap κ ν) (k : κ) :
    (erase hf m k).2.buckets.length = m.buckets.length := by
  simp only [erase]
  cases h : eraseChain k (m.buckets.getD (bucketIdx hf m.buckets.length k) []) <;> simp [h]

theorem erase_wf (hf : κ → Nat) {m : HashMap κ ν} (hwf : WF m) (k : κ) :
    WF (erase hf m k).2 := by
  obtain ⟨hb, hchains⟩ := hwf
  have hchain : chainWF (m.buckets.getD (bucketIdx hf m.buckets.length k) []) :=
    hchains _ (getD_mem (bucketIdx_lt hf k hb) [])
  simp only [erase]
  cases h : eraseChain k (m.buckets.getD (bucketIdx hf m.buckets.length k) []) with
  | none => exact ⟨hb, hchains⟩
  | some c2 =>
    refine ⟨by simpa using hb, ?_⟩
    intro c hc
    rcases List.mem_or_eq_of_mem_set hc with h1 | h2
    · exact hchains c h1
    · subst h2; exact chainWF_eraseChain h hchain

theorem contains_erase_self (hf : κ → Nat) {m : HashMap κ ν} (hwf : WF m) (k : κ) :
    contains hf (erase hf m k).2 k = false := by
  obtain ⟨hb, hchains⟩ := hwf
  have hchain : chainWF (m.buckets.getD (bucketIdx hf m.buckets.length k) []) :=
    hchains _ (getD_mem (bucketIdx_lt hf k hb) [])
  simp only [erase]
  cases h : eraseChain k (m.buckets.getD (bucketIdx hf m.buckets.length k) []) with
  | none =>
    have hfn := (eraseChain_none k _).mp h
    simp only [contains, hfn, Option.isSome_none]
  | some c2 =>
    rw [contains_set_bucket hf hb _ _ k, if_pos rfl,
      findNode_eraseChain_self h hchain]
    rfl

theorem contains_erase_other (hf : κ → Nat) {m : HashMap κ ν}
    (hb : 0 < m.buckets.length) {k k' : κ} (hne : k' ≠ k) :
    contains hf (erase hf m k).2 k' = contains hf m k' := by
  simp only [erase]
  cases h : eraseChain k (m.buckets.getD (bucketIdx hf m.buckets.length k) []) with
  | none => rfl
  | some c2 =>
    rw [contains_set_bucket hf hb _ _ k']
    by_cases hidx : bucketIdx hf m.buckets.length k' = bucketIdx hf m.buckets.length k
    · rw [if_pos hidx, findNode_eraseChain_other hne h, contains, hidx]
    · rw [if_neg hidx, contains]

theorem runOps_inv (hf : κ → Nat) (ops : List (MapOp κ ν)) :
    ∀ (m : HashMap κ ν) (s : Finset κ), WF m →
      (∀ k, contains hf m k = true ↔ k ∈ s) → m.size = s.card →
      WF (runOps hf m ops) ∧
      (∀ k, contains hf (runOps hf m ops) k = true ↔ k ∈ liveSet ops s) ∧
      (runOps hf m ops).size = (liveSet ops s).card := by
  induction ops with
  | nil => intro m s hwf hcorr hsize; exact ⟨hwf, hcorr, hsize⟩
  | cons op ops ih =>
    intro m s hwf hcorr hsize
    cases op with
    | ins k v =>
      simp only [runOps, applyOp, liveSet]
      apply ih
      · exact insert_wf hf hwf k v
      · intro k'
        by_cases hk : k' = k
        · subst hk
          simp [contains_insert_self hf hwf.1 k' v]
        · rw [contains_insert_other hf hwf.1 hk v, hcorr k']
          simp [Finset.mem_insert, hk]
      · rw [insert_size_eq]
        by_cases hc : contains hf m k = true
        · rw [if_pos hc, hsize, Finset.insert_eq_self.mpr ((hcorr k).mp hc)]
        · rw [if_neg hc, hsize,
            Finset.card_insert_of_not_mem (fun hh => hc ((hcorr k).mpr hh))]
    | del k =>
      simp only [runOps, applyOp, liveSet]
      apply ih
      · exact erase_wf hf hwf k
      · intro k'
        by_cases hk : k' = k
        · subst hk
          simp [contains_erase_self hf hwf k']
        · rw [contains_erase_other hf hwf.1 hk, hcorr k']
          simp [Finset.mem_erase, hk]
      · rw [erase_size_eq]
        by_cases hc : contains hf m k = true
        · rw [if_pos hc, hsize, Finset.card_erase_of_mem ((hcorr k).mp hc)]
        · rw [if_neg hc, hsize,
            Finset.erase_eq_of_not_mem (fun hh => hc ((hcorr k).mpr hh))]
    | lookup k => exact ih m s hwf hcorr hsize
    | mem k => exact ih m s hwf hcorr hsize

theorem getD_replicate_nil {β : Type} (n i : Nat) :
    (List.replicate n ([] : List β)).getD i [] = [] := by
  rw [List.getD_eq_getElem?_getD]
  rcases h : (List.replicate n ([] : List β))[i]? with _ | c
  · rfl
  · obtain ⟨hlt, hval⟩ := List.getElem?_eq_some_iff.mp h
    rw [← hval, List.getElem_replicate]
    rfl

theorem contains_mk (hf : κ → Nat) (n : Nat) (k : κ) :
    contains hf (mkHashMap κ ν n) k = false := by
  simp only [contains, mkHashMap, getD_replicate_nil]
  rfl

theorem wf_mk (n : Nat) (hpos : 0 < n) : WF (mkHashMap κ ν n) := by
  refine ⟨by simpa [mkHashMap] using hpos, ?_⟩
  intro c hc
  rw [List.eq_of_mem_replicate hc]
  exact ⟨by simp, by simp⟩

end LFHM

/-- C2: after any single-threaded (quiescent) sequence of
insert/get/erase/contains operations on a map constructed with
`bucket_count = n ≥ 1`, `size()` equals the number of distinct live keys
(keys inserted at least once and not erased since their last insert),
`empty()` returns true iff `size() == 0`, insert of an already-present key
does not change `size()`, and a failed erase leaves the map — hence
`size()` — unchanged. -/
theorem hashmap_size_counts_live_keys {κ ν : Type} [DecidableEq κ] (hf : κ → Nat)
    (n : Nat) (ops : List (LFHM.MapOp κ ν)) (hpos : 0 < n) :
    LFHM.mapSize (LFHM.runOps hf (LFHM.mkHashMap κ ν n) ops)
        = (LFHM.liveSet ops ∅).card ∧
    (LFHM.isEmpty (LFHM.runOps hf (LFHM.mkHashMap κ ν n) ops) = true ↔
        LFHM.mapSize (LFHM.runOps hf (LFHM.mkHashMap κ ν n) ops) = 0) ∧
    (∀ k v, LFHM.contains hf (LFHM.runOps hf (LFHM.mkHashMap κ ν n) ops) k = true →
        (LFHM.insert hf (LFHM.runOps hf (LFHM.mkHashMap κ ν n) ops) k v).2.size
          = (LFHM.runOps hf (LFHM.mkHashMap κ ν n) ops).size) ∧
    (∀ k, (LFHM.erase hf (LFHM.runOps hf (LFHM.mkHashMap κ ν n) ops) k).1 = false →
        LFHM.erase hf (LFHM.runOps hf (LFHM.mkHashMap κ ν n) ops) k
          = (false, LFHM.runOps hf (LFHM.mkHashMap κ ν n) ops)) := by
  obtain ⟨hwf, hcorr, hsize⟩ :=
    LFHM.runOps_inv hf ops (LFHM.mkHashMap κ ν n) ∅ (LFHM.wf_mk n hpos)
      (fun k => by simp [LFHM.contains_mk]) (by simp [LFHM.mkHashMap])
  refine ⟨hsize, ?_, ?_, ?_⟩
  · simp [LFHM.isEmpty, LFHM.mapSize]
  · intro k v hc
    rw [LFHM.insert_size_eq, if_pos hc]
  · intro k hfalse
    rw [LFHM.erase_ret] at hfalse
    exact LFHM.erase_of_not_contains hf hfalse

theorem hashmap_size_counts_live_keys_witness :
    0 < 2 ∧
    LFHM.mapSize (LFHM.runOps (fun k => k) (LFHM.mkHashMap Nat Nat 2)
      [LFHM.MapOp.ins 1 10, LFHM.MapOp.ins 1 20, LFHM.MapOp.ins 3 30, LFHM.MapOp.del 3])
        = (LFHM.liveSet
            [LFHM.MapOp.ins 1 10, LFHM.MapOp.ins 1 20, LFHM.MapOp.ins 3 30, LFHM.MapOp.del 3]
            (∅ : Finset Nat)).card :=
  ⟨by decide,
    (hashmap_size_counts_live_keys (fun k => k) 2
      [LFHM.MapOp.ins 1 10, LFHM.MapOp.ins 1 20, LFHM.MapOp.ins 3 30, LFHM.MapOp.del 3]
      (by decide)).1⟩

/-- C3: in a single-threaded execution, `insert(k,v); get(k)` returns
`some v` for any prior map state (with a nonempty bucket array), and after
`insert(k,v1); insert(k,v2)` a `get(k)` returns `some v2`; when `k` was
absent, the first insert returns `true` ("inserted") and the second returns
`false` ("updated"). -/
theorem hashmap_insert_get_last_wins {κ ν : Type} [DecidableEq κ] (hf : κ → Nat)
    (m : LFHM.HashMap κ ν) (k : κ) (v v1 v2 : ν) (hb : 0 < m.buckets.length) :
    LFHM.get hf (LFHM.insert hf m k v).2 k = some v ∧
    LFHM.get hf (LFHM.insert hf (LFHM.insert hf m k v1).2 k v2).2 k = some v2 ∧
    (LFHM.contains hf m k = false →
      (LFHM.insert hf m k v1).1 = true ∧
      (LFHM.insert hf (LFHM.insert hf m k v1).2 k v2).1 = false) := by
  have hb1 : 0 < (LFHM.insert hf m k v1).2.buckets.length := by
    rw [LFHM.insert_len]; exact hb
  refine ⟨LFHM.get_insert_self hf hb k v, LFHM.get_insert_self hf hb1 k v2, ?_⟩
  intro hc
  constructor
  · rw [LFHM.insert_ret, hc]; rfl
  · rw [LFHM.insert_ret, LFHM.contains_insert_self hf hb k v1]; rfl

theorem hashmap_insert_get_last_wins_witness :
    (0 < (LFHM.mkHashMap Nat Nat 4).buckets.length ∧
      LFHM.contains (fun k => k) (LFHM.mkHashMap Nat Nat 4) 7 = false) ∧
    LFHM.get (fun k => k)
      (LFHM.insert (fun k => k) (LFHM.mkHashMap Nat Nat 4) 7 5).2 7 = some 5 ∧
    ((LFHM.insert (fun k => k) (LFHM.mkHashMap Nat Nat 4) 7 1).1 = true ∧
      (LFHM.insert (fun k => k)
        (LFHM.insert (fun k => k) (LFHM.mkHashMap Nat Nat 4) 7 1).2 7 2).1 = false) :=
  ⟨⟨by decide, by decide⟩,
    (hashmap_insert_get_last_wins (fun k => k) (LFHM.mkHashMap Nat Nat 4) 7 5 1 2
      (by decide)).1,
    (hashmap_insert_get_last_wins (fun k => k) (LFHM.mkHashMap Nat Nat 4) 7 5 1 2
      (by decide)).2.2 (by decide)⟩

/-- C4: in a single-threaded execution on a well-formed map, after
`insert(k,v)` an `erase(k)` returns `true`; immediately afterwards
`contains(k)` returns `false` and a second `erase(k)` returns `false`; and
erase of an absent key returns `false` leaving the map (hence `size()`)
unchanged. -/
theorem hashmap_erase_semantics {κ ν : Type} [DecidableEq κ] (hf : κ → Nat)
    (m : LFHM.HashMap κ ν) (k : κ) (v : ν) (hwf : LFHM.WF m) :
    (LFHM.erase hf (LFHM.insert hf m k v).2 k).1 = true ∧
    LFHM.contains hf (LFHM.erase hf (LFHM.insert hf m k v).2 k).2 k = false ∧
    (LFHM.erase hf (LFHM.erase hf (LFHM.insert hf m k v).2 k).2 k).1 = false ∧
    (∀ k', LFHM.contains hf m k' = false → LFHM.erase hf m k' = (false, m)) := by
  have hwf1 := LFHM.insert_wf hf hwf k v
  have h1 : (LFHM.erase hf (LFHM.insert hf m k v).2 k).1 = true := by
    rw [LFHM.erase_ret, LFHM.contains_insert_self hf hwf.1 k v]
  have h2 := LFHM.contains_erase_self hf hwf1 k
  refine ⟨h1, h2, ?_, ?_⟩
  · rw [LFHM.erase_ret, h2]
  · intro k' hc
    exact LFHM.erase_of_not_contains hf hc

theorem hashmap_erase_semantics_witness :
    LFHM.WF (LFHM.mkHashMap Nat Nat 4) ∧
    (LFHM.erase (fun k => k)
      (LFHM.insert (fun k => k) (LFHM.mkHashMap Nat Nat 4) 7 5).2 7).1 = true :=
  ⟨LFHM.wf_mk 4 (by decide),
    (hashmap_erase_semantics (fun k => k) (LFHM.mkHashMap Nat Nat 4) 7 5
      (LFHM.wf_mk 4 (by decide))).1⟩

/-- C10: under the precondition `bucket_count ≥ 1` chosen at construction, the
bucket-index computation `hash(key) % buckets_.size()` used by every public
operation has a nonzero divisor and yields an index strictly below the bucket
count, so the bucket access is in range; the constructor itself performs no
guard, so a map constructed with `bucket_count = 0` really has zero buckets
and the modulo's divisor is zero. -/
theorem bucket_index_in_range (hf : Nat → Nat) (k n : Nat) (hpos : 0 < n) :
    LFHM.bucketIdx hf n k < n ∧
    (∀ m : Nat, (LFHM.mkHashMap Nat Nat m).buckets.length = m) ∧
    (LFHM.mkHashMap Nat Nat 0).buckets.length = 0 ∧
    (∀ m : LFHM.HashMap Nat Nat, 0 < m.buckets.length →
      LFHM.bucketIdx hf m.buckets.length k < m.buckets.length) := by
  refine ⟨LFHM.bucketIdx_lt hf k hpos, ?_, rfl, ?_⟩
  · intro m
    simp [LFHM.mkHashMap]
  · intro m hb
    exact LFHM.bucketIdx_lt hf k hb

theorem bucket_index_in_range_witness :
    0 < 1024 ∧ LFHM.bucketIdx (fun k => k) 1024 1500 < 1024 :=
  ⟨by decide, (bucket_index_in_range (fun k => k) 1500 1024 (by decide)).1⟩

/-- C5 fails on the source code: under the interleaving in which both
threads' `find_node` walks complete before either CAS publishes (schedule
A-find, B-find, A-CAS, A-increment, B-CAS-fail, B-CAS-retry, B-increment),
both concurrent `insert(k, ·)` calls on a previously absent key return
`true` ("inserted"), the bucket chain ends with two distinct live entries
for the same key `k = 0`, and `size_` ends at 2 — contradicting "exactly one
returns inserted ... never two duplicate chain entries for the same key". -/
theorem insert_race_duplicates_key :
    Race.runSched (κ := Nat) (ν := Nat) 0 1 2 [false, true, false, false, true, true, true]
      = (⟨[⟨0, some 2, false⟩, ⟨0, some 1, false⟩], 2⟩, .ret true, .ret true) ∧
    ((Race.runSched (κ := Nat) (ν := Nat) 0 1 2
        [false, true, false, false, true, true, true]).1.chain.map LFHM.Node.key)
      = [0, 0] ∧
    (Race.runSched (κ := Nat) (ν := Nat) 0 1 2
        [false, true, false, false, true, true, true]).1.size = 2 :=
  ⟨rfl, rfl, rfl⟩

/-- C6 fails on the source code: starting with one work unit (id 0) already
submitted and `wait` about to begin, the schedule worker-dequeue, then
wait-load-active, then wait-check-queue-empty drives `wait` to return while
the unit has not been executed (the worker increments `active_tasks_` only
after its dequeue, so `wait` sees `active_tasks_ == 0` and an empty queue).
At the instant `wait` returns, `executed` is empty and the worker still
holds the unexecuted unit — contradicting "when wait() returns, every work
unit that was submitted before wait began has been executed". -/
theorem wait_returns_with_unexecuted_unit :
    Pool.runPoolSched (⟨[0], 0, []⟩, .deq, .spin) [false, true, true]
      = (⟨[], 0, []⟩, .inc 0, .returned) ∧
    (Pool.runPoolSched (⟨[0], 0, []⟩, .deq, .spin) [false, true, true]).2.2
      = Pool.MPhase.returned ∧
    (Pool.runPoolSched (⟨[0], 0, []⟩, .deq, .spin) [false, true, true]).1.executed
      = [] :=
  ⟨rfl, rfl, rfl⟩

theorem workerDrain_spec {ε ρ : Type} (tasks : List (Except ε ρ)) (dflt : Except ε ρ) :
    ∀ (idxs : List Nat) (c0 : Option Nat) (handles : Handles ε ρ),
      workerDrain tasks dflt idxs.length ⟨c0 :: idxs.map some⟩ handles
        = idxs.foldl (fun h i => Function.update h i (some (tasks.getD i dflt))) handles := by
  intro idxs
  induction idxs with
  | nil => intro c0 handles; rfl
  | cons i idxs ih =>
    intro c0 handles
    simpa [workerDrain, LFQ1.dequeue] using
      ih (some i) (Function.update handles i (some (tasks.getD i dflt)))

theorem foldl_update {β : Type} (g : Nat → β) :
    ∀ (idxs : List Nat) (h : Nat → Option β) (j : Nat),
      idxs.foldl (fun h i => Function.update h i (some (g i))) h j
        = if j ∈ idxs then some (g j) else h j := by
  intro idxs
  induction idxs with
  | nil => intro h j; simp
  | cons i idxs ih =>
    intro h j
    rw [List.foldl_cons, ih]
    by_cases hj : j ∈ idxs
    · simp [hj]
    · by_cases hji : j = i
      · subst hji
        simp [hj, Function.update]
      · simp [hj, hji, Function.update]

theorem poolRun_handle {ε ρ : Type} (tasks : List (Except ε ρ)) (dflt : Except ε ρ)
    (i : Nat) (hi : i < tasks.length) :
    poolRun tasks dflt i = some (tasks.getD i dflt) := by
  have hq : LFQ1.enqAll LFQ1.init (List.range tasks.length)
      = (⟨none :: (List.range tasks.length).map some⟩ : LFQ1.Queue Nat) := by
    have h := LFQ1.enqAll_nodes (List.range tasks.length) (LFQ1.init (α := Nat))
    simp [LFQ1.init] at h
    exact congrArg LFQ1.Queue.mk h
  have hlen : tasks.length = (List.range tasks.length).length := by simp
  rw [poolRun, hq]
  rw [show workerDrain tasks dflt tasks.length
        (⟨none :: (List.range tasks.length).map some⟩ : LFQ1.Queue Nat) (fun _ => none)
      = workerDrain tasks dflt (List.range tasks.length).length
        (⟨none :: (List.range tasks.length).map some⟩ : LFQ1.Queue Nat) (fun _ => none)
    from by rw [← hlen]]
  rw [workerDrain_spec tasks dflt (List.range tasks.length) none (fun _ => none)]
  rw [foldl_update]
  simp [List.mem_range, hi]

/-- C7: a submitted work unit that throws has that same failure captured in
its result handle, the worker does not die, and the pool remains usable:
after the drain, every submitted unit's handle holds exactly that unit's own
outcome; concretely, for the workload [unit throwing "boom", unit returning
42] the first handle surfaces the failure and the second yields 42. -/
theorem pool_failure_propagation :
    (∀ (tasks : List (Except String Nat)) (i : Nat), i < tasks.length →
      poolRun tasks (Except.error "") i = some (tasks.getD i (Except.error ""))) ∧
    poolRun [Except.error "boom", Except.ok 42] (Except.error "") 0
      = some (Except.error "boom") ∧
    poolRun [Except.error "boom", Except.ok 42] (Except.error "") 1
      = some (Except.ok 42) :=
  ⟨fun tasks i hi => poolRun_handle tasks (Except.error "") i hi, rfl, rfl⟩

theorem pool_failure_propagation_witness :
    0 < (List.length [Except.error "boom", Except.ok (42 : Nat)]) ∧
    poolRun [Except.error "boom", Except.ok 42] (Except.error "") 0
      = some (Except.error "boom") :=
  ⟨by decide,
    pool_failure_propagation.1 [Except.error "boom", Except.ok 42] 0 (by decide)⟩

/-- C8: a requested worker count of 0 is coerced to 1, the pool always has at
least one worker thread, and submit on such a pool still works: a submitted
unit returning 42 is executed and its handle yields that value. -/
theorem pool_zero_workers_coerced :
    effectiveWorkers 0 = 1 ∧ (∀ n : Nat, 0 < effectiveWorkers n) ∧
    poolRun [Except.ok 42] (Except.error ("" : String)) 0 = some (Except.ok 42) := by
  refine ⟨rfl, ?_, rfl⟩
  intro n
  cases n with
  | zero => decide
  | succ n => simp [effectiveWorkers]

end CDS
